import Mathlib

/-!
Verification of the open-addressing hash table in `src/Final/hash_table.h`
(class template `nwacc::hash_table<T, K>`).

Modelling notes, each justified by the source:

* The C++ class passes the *key* to `find_position(const T & value)` in
  `insert` (line 65), `get_key` (line 173) and the key overloads of
  `contains`/`remove`; this is well-typed only when `K` is (convertible to)
  `T`.  We therefore embed the instantiation `T = K =: τ`, which is the only
  family of instantiations for which those member functions type-check.
  Values and keys remain separate fields of every slot, so key/value
  behaviour is still fully observable.

* `std::hash<T>` is implementation defined; we model it as an arbitrary
  parameter `hashFn : τ → Nat`.  `hash` reduces it modulo the backing
  sequence length, exactly as line 386 does.

* C++ `int`/`std::size_t` values occurring here are non-negative
  throughout (positions, offsets, sizes), so they are modelled as `Nat`;
  the single conditional subtraction of line 349-352 is translated
  literally (`probe_step`), NOT as a full `%` reduction.

* The unbounded loops of the source (`find_position`'s probe loop,
  `next_prime`'s search, and the `insert` → `rehash` → `insert` recursion)
  are modelled with explicit fuel so that every definition is executable
  and kernel-reducible; `none`/a fuel-out marker models a C++ execution
  that crashes (out-of-bounds vector access) or does not terminate.
  Theorems about the fueled functions are fuel-insensitive (they are
  conditioned on the function returning a result) or instantiate the fuel
  concretely.

* `rehash` (line 374) calls `this->insert(std::move(entry.element))` with a
  single argument although both `insert` overloads require two; this is
  ill-formed C++.  The minimal completion that preserves the written
  argument list supplies a value-initialised key `K{}` (modelled as
  `default`), which is recorded where used.
-/

set_option maxRecDepth 8000

/-- The tri-state slot tag, from `enum entry_type { kActive, kEmpty, kDeleted }`
(line 165). -/
inductive entry_type : Type where
  | kActive : entry_type
  | kEmpty : entry_type
  | kDeleted : entry_type
deriving DecidableEq

/-- One slot of the backing sequence, from `struct entry` (lines 279-290):
an element, a key and the tri-state tag. -/
structure entry (τ : Type) where
  element : τ
  key : τ
  type : entry_type
deriving DecidableEq

/-- The table state: the backing `std::vector<entry> array` and
`std::size_t current_size` (lines 316, 321). -/
structure hash_table (τ : Type) where
  array : List (entry τ)
  current_size : Nat
deriving DecidableEq

/-- The trial-division loop of `is_prime` (lines 255-256):
`for (auto counter = 3; counter * counter <= number; counter += 2)
   if (number % counter == 0) return false;`
The loop is bounded in the source (counter grows); the fuel argument makes
the recursion structural, and `is_prime` supplies more fuel than the loop
can consume. -/
def trial_division : Nat → Nat → Nat → Bool
  | 0, _, _ => true
  | fuel + 1, number, counter =>
    if counter * counter ≤ number then
      if number % counter = 0 then false
      else trial_division fuel number (counter + 2)
    else true

/-- `is_prime` (lines 251-259), translated clause by clause. -/
def is_prime (number : Nat) : Bool :=
  if number = 2 ∨ number = 3 then true
  else if number = 1 ∨ number % 2 = 0 then false
  else trial_division number number 3

/-- The search loop of `next_prime` (line 270):
`while (!is_prime(number)) number += 2;`.  Fuel-bounded; if fuel runs out
the current candidate is returned (the sufficiency of the fuel chosen in
`next_prime` is proved below from Bertrand's postulate). -/
def next_prime_from : Nat → Nat → Nat
  | number, 0 => number
  | number, fuel + 1 =>
    if is_prime number then number else next_prime_from (number + 2) fuel

/-- `next_prime` (lines 267-272): force the candidate odd, then search
upward in steps of two. -/
def next_prime (number : Nat) : Nat :=
  next_prime_from (if number % 2 = 0 then number + 1 else number) (number + 2)

/-- `hash` (lines 383-387): the hash object's result reduced modulo the
backing sequence's length. -/
def hashMod {τ : Type} (hashFn : τ → Nat) (t : hash_table τ) (value : τ) : Nat :=
  hashFn value % t.array.length

/-- Outcome of the probe loop of `find_position`: it returns an index
(`found`), or the C++ loop performs an out-of-bounds `array[pos]` access
(`oob pos`, undefined behaviour in the source), or the modelling fuel ran
out (`fuelOut`). -/
inductive ProbeResult : Type where
  | found : Nat → ProbeResult
  | oob : Nat → ProbeResult
  | fuelOut : ProbeResult
deriving DecidableEq

/-- Whether a probe returned an index. -/
def is_found : ProbeResult → Bool
  | .found _ => true
  | _ => false

/-- One position update of the probe loop (lines 347-352):
`current_position += off_set; if (current_position >= size)
current_position -= size;` — note the single conditional subtraction. -/
def probe_step (size pos off : Nat) : Nat :=
  if size ≤ pos + off then pos + off - size else pos + off

/-- The probe loop of `find_position` (lines 344-353).  At each examined
position: stop when the slot is Empty or its element equals the probed
value (`array[p].type != kEmpty && array[p].element != value` is the
*continue* condition); otherwise advance by the current offset and grow the
offset by 2. -/
def find_position_aux {τ : Type} [DecidableEq τ] (arr : List (entry τ)) (value : τ) :
    Nat → Nat → Nat → ProbeResult
  | _, _, 0 => .fuelOut
  | pos, off, fuel + 1 =>
    match arr[pos]? with
    | none => .oob pos
    | some e =>
      if e.type = .kEmpty ∨ e.element = value then .found pos
      else find_position_aux arr value (probe_step arr.length pos off) (off + 2) fuel

/-- `find_position` (lines 339-355): start at the hashed position with
offset 1.  The fuel `3 * length + 5` exceeds the number of iterations any
terminating execution of the source loop can perform. -/
def find_position {τ : Type} [DecidableEq τ] (hashFn : τ → Nat) (t : hash_table τ)
    (value : τ) : ProbeResult :=
  find_position_aux t.array value (hashMod hashFn t value) 1 (3 * t.array.length + 5)

/-- `is_active` (lines 329-332). -/
def is_active {τ : Type} (t : hash_table τ) (pos : Nat) : Bool :=
  match t.array[pos]? with
  | some e => decide (e.type = .kActive)
  | none => false

/-- `contains` (lines 31-42): `is_active(find_position(x))`.  `none` models
a crashing probe. -/
def containsF {τ : Type} [DecidableEq τ] (hashFn : τ → Nat) (t : hash_table τ)
    (x : τ) : Option Bool :=
  match find_position hashFn t x with
  | .found pos => some (is_active t pos)
  | _ => none

/-- `make_empty` (lines 47-54): zero the size and mark every slot Empty. -/
def make_empty {τ : Type} (t : hash_table τ) : hash_table τ :=
  { array := t.array.map (fun e => { e with type := .kEmpty }), current_size := 0 }

/-- The constructor (lines 23-26): a vector of `next_prime(size)`
value-initialised entries (`element = T\x7b\x7d`, `key = K\x7b\x7d`, tag `kEmpty`),
then `make_empty()`. -/
def mk_table (τ : Type) [Inhabited τ] (size : Nat) : hash_table τ :=
  make_empty
    { array :=
        List.replicate (next_prime size)
          ({ element := default, key := default, type := .kEmpty } : entry τ),
      current_size := 0 }

/-- `remove` (lines 128-160; both overloads are textually identical): probe
the argument, return false if the found slot is not Active, otherwise mark
it Deleted.  `current_size` is not changed. -/
def removeF {τ : Type} [DecidableEq τ] (hashFn : τ → Nat) (t : hash_table τ)
    (x : τ) : Option (Bool × hash_table τ) :=
  match find_position hashFn t x with
  | .found pos =>
    match t.array[pos]? with
    | some e =>
      if e.type = .kActive then
        some (true, { t with array := t.array.set pos { e with type := .kDeleted } })
      else some (false, t)
    | none => none
  | _ => none

/-- `get_key` (lines 171-179).  The guard in the source is
`array[position].type == !kActive`; since `kActive` has value 0,
`!kActive` is the integer 1, i.e. `kEmpty`, so the error is signalled
exactly when the slot is Empty.  (The source also declares the return type
`void` yet returns `element`; we model the returned element.)
`some (Except.error ())` models the thrown `std::length_error`. -/
def get_key {τ : Type} [DecidableEq τ] (hashFn : τ → Nat) (t : hash_table τ)
    (key : τ) : Option (Except Unit τ) :=
  match find_position hashFn t key with
  | .found pos =>
    match t.array[pos]? with
    | some e => if e.type = .kEmpty then some (Except.error ()) else some (Except.ok e.element)
    | none => none
  | _ => none

/-- `get_value` (lines 185-193), symmetric to `get_key`: probes the
argument and returns the stored key; same `== !kActive` guard. -/
def get_value {τ : Type} [DecidableEq τ] (hashFn : τ → Nat) (t : hash_table τ)
    (value : τ) : Option (Except Unit τ) :=
  match find_position hashFn t value with
  | .found pos =>
    match t.array[pos]? with
    | some e => if e.type = .kEmpty then some (Except.error ()) else some (Except.ok e.key)
    | none => none
  | _ => none

/-- The state of `this->array` right after lines 362-367 of `rehash`:
`array.resize(next_prime(2 * old.size()))` keeps the old entries and
appends value-initialised ones, then every slot's tag is set to `kEmpty`.
`current_size` is NOT reset by the source. -/
def clearedResize {τ : Type} [Inhabited τ] (t : hash_table τ) : hash_table τ :=
  { array :=
      (t.array ++
        List.replicate (next_prime (2 * t.array.length) - t.array.length)
          ({ element := default, key := default, type := .kEmpty } : entry τ)).map
        (fun e => { e with type := .kEmpty }),
    current_size := t.current_size }

/-- The three mutually recursive pieces of the source's insertion path:
`insert` (lines 63-87), `rehash` (lines 360-378) and rehash's re-insertion
loop (lines 370-376). -/
inductive Job (τ : Type) where
  | ins : hash_table τ → τ → τ → Job τ
  | reh : hash_table τ → Job τ
  | reinsert : hash_table τ → List (entry τ) → Job τ

/-- Fueled interpreter for `insert`/`rehash`/re-insertion.

* `.ins t value key` is `insert(value, key)` (lines 63-87).  The slot is
  `find_position(key)` (line 65 passes the KEY).  If it is Active: update
  the element in place when the stored key equals the supplied key, and in
  either case return false without touching `current_size`.  Otherwise
  write value/key/Active, increment `current_size`, and rehash when
  `current_size > size/2`.
* `.reh t` is `rehash()` (lines 360-378): resize-and-clear, then re-insert
  every Active entry of the old array.  `current_size` is not reset.
* `.reinsert s old` is the loop of lines 370-376.  Line 374 calls `insert`
  with only `entry.element`; the dropped key argument is modelled as the
  value-initialised `default` (see the header comment).

The Boolean in the result is `insert`'s return value (meaningful for
`.ins`; `true` for the other jobs).  `none` models a crash or exhausted
fuel. -/
def execF {τ : Type} [DecidableEq τ] [Inhabited τ] (hashFn : τ → Nat) :
    Nat → Job τ → Option (Bool × hash_table τ)
  | 0, _ => none
  | fuel + 1, .ins t value key =>
    match find_position hashFn t key with
    | .found pos =>
      match t.array[pos]? with
      | none => none
      | some e =>
        if e.type = .kActive then
          if e.key = key then
            some (false, { t with array := t.array.set pos { e with element := value } })
          else some (false, t)
        else
          let t' : hash_table τ :=
            { array := t.array.set pos { element := value, key := key, type := .kActive },
              current_size := t.current_size + 1 }
          if t'.array.length / 2 < t'.current_size then execF hashFn fuel (.reh t')
          else some (true, t')
    | _ => none
  | fuel + 1, .reh t =>
    (execF hashFn fuel (.reinsert (clearedResize t) t.array)).map (fun p => (true, p.2))
  | _ + 1, .reinsert s [] => some (true, s)
  | fuel + 1, .reinsert s (e :: rest) =>
    if e.type = .kActive then
      (execF hashFn fuel (.ins s e.element default)).bind
        (fun p => execF hashFn fuel (.reinsert p.2 rest))
    else execF hashFn fuel (.reinsert s rest)

/-- `insert(value, key)` (lines 63-87), as a run of the interpreter. -/
def insertF {τ : Type} [DecidableEq τ] [Inhabited τ] (hashFn : τ → Nat) (fuel : Nat)
    (t : hash_table τ) (value key : τ) : Option (Bool × hash_table τ) :=
  execF hashFn fuel (.ins t value key)

/-- `rehash()` (lines 360-378), as a run of the interpreter. -/
def rehashF {τ : Type} [DecidableEq τ] [Inhabited τ] (hashFn : τ → Nat) (fuel : Nat)
    (t : hash_table τ) : Option (hash_table τ) :=
  (execF hashFn fuel (.reh t)).map (fun p => p.2)

/-- The position examined by the probe loop on attempt `k` (starting
position `h`, capacity `size`): iterate `probe_step` with the odd offsets
1, 3, 5, … -/
def probe_pos (size h : Nat) : Nat → Nat
  | 0 => h
  | k + 1 => probe_step size (probe_pos size h k) (2 * k + 1)

/-- Whether the probe loop's stop condition (line 344-345, negated) holds
at index `i`: the slot is Empty or stores the probed value.  An
out-of-range index never stops the loop (it crashes it). -/
def stopAt {τ : Type} [DecidableEq τ] (arr : List (entry τ)) (value : τ) (i : Nat) : Bool :=
  match arr[i]? with
  | some e => decide (e.type = .kEmpty) || decide (e.element = value)
  | none => false

/-- Number of slots that are not Empty (Active or Deleted). -/
def nonEmptyCount {τ : Type} (t : hash_table τ) : Nat :=
  t.array.countP (fun e => decide (e.type ≠ .kEmpty))

/-- Whether the slot at index `i` exists and is not Empty. -/
def slotNonEmpty {τ : Type} (arr : List (entry τ)) (i : Nat) : Bool :=
  match arr[i]? with
  | some e => decide (e.type ≠ entry_type.kEmpty)
  | none => false

/-- C1: the source's `rehash` (line 374) re-inserts only `entry.element`,
dropping the key (the call `insert(std::move(entry.element))` is even
ill-formed C++, as `insert` has no one-argument overload).  Concretely, on
a capacity-3 table with identity hash: `insert(10,7)`, `remove(10)`,
`insert(10,7)` — the second insert raises `current_size` to 2 > 3/2 and
triggers a rehash of the single Active entry (element 10, key 7).  The
rehash does resize to `next_prime(2*3) = 7`, but afterwards the entry's
key is the value-initialised 0, no Active slot carries key 7, `get_key 7`
signals NotFound, and `current_size` was not reset (3 for one Active
entry) — refuting the claim that every previously Active entry remains
retrievable with the same value and key. -/
theorem claim_C1_rehash_drops_keys :
    insertF (fun x => x) 30 (mk_table Nat 3) 10 7 =
      some (true, ⟨[⟨0, 0, .kEmpty⟩, ⟨10, 7, .kActive⟩, ⟨0, 0, .kEmpty⟩], 1⟩) ∧
    removeF (fun x => x)
        (⟨[⟨0, 0, .kEmpty⟩, ⟨10, 7, .kActive⟩, ⟨0, 0, .kEmpty⟩], 1⟩ : hash_table Nat) 10 =
      some (true, ⟨[⟨0, 0, .kEmpty⟩, ⟨10, 7, .kDeleted⟩, ⟨0, 0, .kEmpty⟩], 1⟩) ∧
    insertF (fun x => x) 30
        (⟨[⟨0, 0, .kEmpty⟩, ⟨10, 7, .kDeleted⟩, ⟨0, 0, .kEmpty⟩], 1⟩ : hash_table Nat) 10 7 =
      some (true,
        ⟨[⟨10, 0, .kActive⟩, ⟨10, 7, .kEmpty⟩, ⟨10, 7, .kEmpty⟩, ⟨0, 0, .kEmpty⟩,
          ⟨0, 0, .kEmpty⟩, ⟨0, 0, .kEmpty⟩, ⟨0, 0, .kEmpty⟩], 3⟩) ∧
    get_key (fun x => x)
        (⟨[⟨10, 0, .kActive⟩, ⟨10, 7, .kEmpty⟩, ⟨10, 7, .kEmpty⟩, ⟨0, 0, .kEmpty⟩,
          ⟨0, 0, .kEmpty⟩, ⟨0, 0, .kEmpty⟩, ⟨0, 0, .kEmpty⟩], 3⟩ : hash_table Nat) 7 =
      some (Except.error ()) ∧
    (⟨[⟨10, 0, .kActive⟩, ⟨10, 7, .kEmpty⟩, ⟨10, 7, .kEmpty⟩, ⟨0, 0, .kEmpty⟩,
          ⟨0, 0, .kEmpty⟩, ⟨0, 0, .kEmpty⟩, ⟨0, 0, .kEmpty⟩], 3⟩ : hash_table Nat).array.countP
        (fun e => decide (e.key = 7) && decide (e.type = .kActive)) = 0 :=
  ⟨rfl, rfl, rfl, rfl, rfl⟩

/-- C2 counterexample: `find_position` DOES stop at a Deleted slot when the
slot's stored element equals the probed item (the loop condition on lines
344-345 never inspects `kDeleted`).  With identity hash on a capacity-3
table whose slot 2 is Deleted with element 5, probing 5 returns index 2 —
a Deleted slot — whereas the claim says a Deleted slot never stops the
search. -/
theorem claim_C2_counterexample :
    find_position (fun x => x)
        (⟨[⟨0, 0, .kEmpty⟩, ⟨0, 0, .kEmpty⟩, ⟨5, 7, .kDeleted⟩], 1⟩ : hash_table Nat) 5 =
      .found 2 ∧
    (⟨[⟨0, 0, .kEmpty⟩, ⟨0, 0, .kEmpty⟩, ⟨5, 7, .kDeleted⟩], 1⟩ : hash_table Nat).array[2]? =
      some ⟨5, 7, .kDeleted⟩ :=
  ⟨rfl, rfl⟩

/-- C3 counterexample: the examined index is NOT always in range.  The
loop reduces the position by at most one subtraction of the capacity
(lines 349-352), so once the per-step offset reaches the capacity the
position can land at `capacity` or above and the next `array[pos]` access
is out of bounds.  On a capacity-3 table with all slots Active (elements
10, 11, 12) and identity hash, probing 5 examines positions 2, 0, 0, 2 and
then attempts to examine index 6 ≥ 3: the loop crashes instead of staying
in range. -/
theorem claim_C3_counterexample :
    find_position (fun x => x)
        (⟨[⟨10, 0, .kActive⟩, ⟨11, 0, .kActive⟩, ⟨12, 0, .kActive⟩], 3⟩ : hash_table Nat) 5 =
      .oob 6 ∧
    (⟨[⟨10, 0, .kActive⟩, ⟨11, 0, .kActive⟩, ⟨12, 0, .kActive⟩],
        3⟩ : hash_table Nat).array.length = 3 ∧
    ¬(6 < 3) :=
  ⟨rfl, rfl, by decide⟩

/-- C4 counterexample: `insert(value, key)` computes its slot as
`find_position(key)` (line 65), not `find_position(value)`.  On a fresh
capacity-3 table with identity hash, `insert(value 1, key 2)` activates
slot 2 (the probe position of the KEY) and leaves slot 1 — the probe
position of the value, where the claim says the entry must go — Empty. -/
theorem claim_C4_counterexample :
    find_position (fun x => x) (mk_table Nat 3) 1 = .found 1 ∧
    insertF (fun x => x) 5 (mk_table Nat 3) 1 2 =
      some (true, ⟨[⟨0, 0, .kEmpty⟩, ⟨0, 0, .kEmpty⟩, ⟨1, 2, .kActive⟩], 1⟩) ∧
    (⟨[⟨0, 0, .kEmpty⟩, ⟨0, 0, .kEmpty⟩, ⟨1, 2, .kActive⟩], 1⟩ : hash_table Nat).array[1]? =
      some ⟨0, 0, .kEmpty⟩ ∧
    (⟨[⟨0, 0, .kEmpty⟩, ⟨0, 0, .kEmpty⟩, ⟨1, 2, .kActive⟩], 1⟩ : hash_table Nat).array[2]? =
      some ⟨1, 2, .kActive⟩ :=
  ⟨rfl, rfl, rfl, rfl⟩

/-- C5: the accessors do NOT signal NotFound at every non-Active position.
The guard `array[pos].type == !kActive` (lines 174, 188) compares the tag
with the integer 1, i.e. with `kEmpty`, so only an Empty position throws.
On a capacity-3 table whose slot 2 is Deleted with element 5 and key 7
(identity hash), the probe for 5 stops at the Deleted slot 2, which is not
Active, yet `get_key` returns the stored element 5 and `get_value` returns
the stored key 7 instead of signalling NotFound — contradicting the claim
and the accessors' own documentation. -/
theorem claim_C5_deleted_position_not_signalled :
    get_key (fun x => x)
        (⟨[⟨0, 0, .kEmpty⟩, ⟨0, 0, .kEmpty⟩, ⟨5, 7, .kDeleted⟩], 1⟩ : hash_table Nat) 5 =
      some (Except.ok 5) ∧
    get_value (fun x => x)
        (⟨[⟨0, 0, .kEmpty⟩, ⟨0, 0, .kEmpty⟩, ⟨5, 7, .kDeleted⟩], 1⟩ : hash_table Nat) 5 =
      some (Except.ok 7) ∧
    is_active (⟨[⟨0, 0, .kEmpty⟩, ⟨0, 0, .kEmpty⟩, ⟨5, 7, .kDeleted⟩], 1⟩ : hash_table Nat)
        2 = false :=
  ⟨rfl, rfl, rfl⟩

/-- C7 counterexample: the stated load-factor hypothesis does not make
`find_position` terminate.  This capacity-5 table is prime-sized, has
`current_size = 2 ≤ 5/2` and two Empty slots, yet probing 5 (identity
hash) only ever examines the Deleted slots 0, 1, 4 before the
single-subtraction arithmetic drives the position to the out-of-range
index 6: the loop crashes without returning an index.  (The number of
NON-Empty slots here is 3 > 5/2; `current_size` does not bound it.) -/
theorem claim_C7_counterexample :
    Nat.Prime
      (⟨[⟨10, 0, .kDeleted⟩, ⟨11, 0, .kDeleted⟩, ⟨0, 0, .kEmpty⟩, ⟨0, 0, .kEmpty⟩,
          ⟨12, 0, .kDeleted⟩], 2⟩ : hash_table Nat).array.length ∧
    (⟨[⟨10, 0, .kDeleted⟩, ⟨11, 0, .kDeleted⟩, ⟨0, 0, .kEmpty⟩, ⟨0, 0, .kEmpty⟩,
        ⟨12, 0, .kDeleted⟩], 2⟩ : hash_table Nat).current_size ≤ 5 / 2 ∧
    0 < (⟨[⟨10, 0, .kDeleted⟩, ⟨11, 0, .kDeleted⟩, ⟨0, 0, .kEmpty⟩, ⟨0, 0, .kEmpty⟩,
        ⟨12, 0, .kDeleted⟩], 2⟩ : hash_table Nat).array.countP
        (fun e => decide (e.type = .kEmpty)) ∧
    find_position (fun x => x)
        (⟨[⟨10, 0, .kDeleted⟩, ⟨11, 0, .kDeleted⟩, ⟨0, 0, .kEmpty⟩, ⟨0, 0, .kEmpty⟩,
          ⟨12, 0, .kDeleted⟩], 2⟩ : hash_table Nat) 5 = .oob 6 ∧
    is_found
        (find_position (fun x => x)
          (⟨[⟨10, 0, .kDeleted⟩, ⟨11, 0, .kDeleted⟩, ⟨0, 0, .kEmpty⟩, ⟨0, 0, .kEmpty⟩,
            ⟨12, 0, .kDeleted⟩], 2⟩ : hash_table Nat) 5) = false :=
  ⟨by decide, by decide, by decide, rfl, rfl⟩

/-- C9 counterexample: requesting capacity 2 does not yield capacity 2.
`next_prime` first forces its argument odd (line 269), so it can never
return the prime 2: the constructed table has capacity 3 although 2 is a
prime ≥ 2. -/
theorem claim_C9_counterexample :
    (mk_table Nat 2).array.length = 3 ∧
    (mk_table Nat 2).array.length ≠ 2 ∧
    Nat.Prime 2 :=
  ⟨rfl, by decide, by decide⟩

/-- If the probe loop returns an index, the slot there satisfies the stop
condition: it is Empty or stores the probed value. -/
theorem find_position_aux_found_stop {τ : Type} [DecidableEq τ] (arr : List (entry τ))
    (v : τ) :
    ∀ fuel pos off i, find_position_aux arr v pos off fuel = ProbeResult.found i →
      ∃ e, arr[i]? = some e ∧ (e.type = entry_type.kEmpty ∨ e.element = v) := by
  intro fuel
  induction fuel with
  | zero => intro pos off i h; simp [find_position_aux] at h
  | succ n ih =>
    intro pos off i h
    rw [find_position_aux] at h
    split at h
    · exact ProbeResult.noConfusion h
    · rename_i e hg
      split at h
      · rename_i hstop
        obtain rfl := ProbeResult.found.inj h
        exact ⟨e, hg, hstop⟩
      · exact ih _ _ _ h

/-- Replacing the slot at the returned index with another stopping slot
does not change the probe loop's result: every position examined before
the final one fails the stop condition and therefore differs from the
returned index, so the prefix of the run is unchanged. -/
theorem find_position_aux_set_stable {τ : Type} [DecidableEq τ] (arr : List (entry τ))
    (v : τ) (f : entry τ)
    (hstopf : f.type = entry_type.kEmpty ∨ f.element = v) :
    ∀ fuel pos off i, find_position_aux arr v pos off fuel = ProbeResult.found i →
      find_position_aux (arr.set i f) v pos off fuel = ProbeResult.found i := by
  intro fuel
  induction fuel with
  | zero => intro pos off i h; simp [find_position_aux] at h
  | succ n ih =>
    intro pos off i h
    rw [find_position_aux] at h
    rw [find_position_aux]
    split at h
    · exact ProbeResult.noConfusion h
    · rename_i e hg
      split at h
      · rename_i hstop
        obtain rfl := ProbeResult.found.inj h
        have hlt : pos < arr.length := by
          rcases List.getElem?_eq_some_iff.mp hg with ⟨hl, _⟩
          exact hl
        rw [List.getElem?_set_self hlt]
        simp only [if_pos hstopf]
      · rename_i hstop
        have hne : i ≠ pos := by
          intro hip
          rcases find_position_aux_found_stop arr v n _ _ i h with ⟨e2, hg2, hs2⟩
          rw [hip, hg] at hg2
          cases hg2
          exact hstop hs2
        rw [List.getElem?_set_ne hne, hg]
        simp only [if_neg hstop]
        have := ih (probe_step arr.length pos off) (off + 2) i h
        simpa [List.length_set] using this

/-- C2: the claim's stop condition is wrong about Deleted slots.  What the
code does (amended claim): `find_position` stops and returns the current
index exactly when the slot is Empty or when the slot's stored element
equals the probed item, regardless of whether that slot is Active or
Deleted; only a Deleted slot whose element differs from the item is probed
past.  In particular the returned index always holds an Empty slot or a
slot whose element is the item. -/
theorem claim_C2_amended {τ : Type} [DecidableEq τ] (hashFn : τ → Nat)
    (t : hash_table τ) (v : τ) (i : Nat)
    (h : find_position hashFn t v = ProbeResult.found i) :
    ∃ e, t.array[i]? = some e ∧ (e.type = entry_type.kEmpty ∨ e.element = v) :=
  find_position_aux_found_stop t.array v _ _ _ i h

/-- Witness for C2's amended theorem: on a table whose slot 2 is Deleted
with element 5, the probe for 5 returns index 2 and the slot there indeed
stores the probed element. -/
theorem claim_C2_amended_witness :
    ∃ e, (⟨[⟨0, 0, .kEmpty⟩, ⟨0, 0, .kEmpty⟩, ⟨5, 7, .kDeleted⟩],
        1⟩ : hash_table Nat).array[2]? = some e ∧
      (e.type = entry_type.kEmpty ∨ e.element = 5) :=
  claim_C2_amended (fun x => x)
    (⟨[⟨0, 0, .kEmpty⟩, ⟨0, 0, .kEmpty⟩, ⟨5, 7, .kDeleted⟩], 1⟩ : hash_table Nat) 5 2 rfl

/-- C10: `remove` is exactly a one-slot tag update.  When it returns true
it changed only the tag of the slot at `find_position(x)` to Deleted —
that slot's element and key, every other slot, the length and
`current_size` are unchanged — and when it returns false the table is
untouched. -/
theorem claim_C10_remove_frame {τ : Type} [DecidableEq τ] (hashFn : τ → Nat)
    (t : hash_table τ) (x : τ) (b : Bool) (t' : hash_table τ)
    (h : removeF hashFn t x = some (b, t')) :
    (b = true → ∃ pos e, find_position hashFn t x = ProbeResult.found pos ∧
      t.array[pos]? = some e ∧ e.type = entry_type.kActive ∧
      t'.current_size = t.current_size ∧ t'.array.length = t.array.length ∧
      t'.array[pos]? = some { e with type := entry_type.kDeleted } ∧
      ∀ j, j ≠ pos → t'.array[j]? = t.array[j]?) ∧
    (b = false → t' = t) := by
  unfold removeF at h
  split at h
  · rename_i pos hfp
    split at h
    · rename_i e hg
      have hlt : pos < t.array.length := by
        rcases List.getElem?_eq_some_iff.mp hg with ⟨hl, _⟩
        exact hl
      split at h
      · rename_i hact
        injection h with h1
        injection h1 with hb ht
        subst hb
        subst ht
        refine ⟨fun _ => ⟨pos, e, hfp, hg, hact, rfl, by simp, ?_, ?_⟩, by simp⟩
        · simpa using List.getElem?_set_self hlt
        · intro j hj
          simpa using List.getElem?_set_ne (fun hpj => hj hpj.symm)
      · injection h with h1
        injection h1 with hb ht
        subst hb
        subst ht
        exact ⟨by simp, fun _ => rfl⟩
    · exact Option.noConfusion h
  · exact Option.noConfusion h

/-- Witness for C10: removing 10 from a table whose slot 1 is Active with
element 10 flips exactly that slot's tag. -/
theorem claim_C10_remove_frame_witness :
    removeF (fun x => x)
        (⟨[⟨0, 0, .kEmpty⟩, ⟨10, 7, .kActive⟩, ⟨0, 0, .kEmpty⟩], 1⟩ : hash_table Nat) 10 =
      some (true, ⟨[⟨0, 0, .kEmpty⟩, ⟨10, 7, .kDeleted⟩, ⟨0, 0, .kEmpty⟩], 1⟩) ∧
    (true = true → ∃ pos e,
      find_position (fun x => x)
          (⟨[⟨0, 0, .kEmpty⟩, ⟨10, 7, .kActive⟩, ⟨0, 0, .kEmpty⟩], 1⟩ : hash_table Nat) 10 =
        ProbeResult.found pos ∧
      (⟨[⟨0, 0, .kEmpty⟩, ⟨10, 7, .kActive⟩, ⟨0, 0, .kEmpty⟩],
          1⟩ : hash_table Nat).array[pos]? = some e ∧
      e.type = entry_type.kActive ∧
      (⟨[⟨0, 0, .kEmpty⟩, ⟨10, 7, .kDeleted⟩, ⟨0, 0, .kEmpty⟩],
          1⟩ : hash_table Nat).current_size =
        (⟨[⟨0, 0, .kEmpty⟩, ⟨10, 7, .kActive⟩, ⟨0, 0, .kEmpty⟩],
          1⟩ : hash_table Nat).current_size ∧
      (⟨[⟨0, 0, .kEmpty⟩, ⟨10, 7, .kDeleted⟩, ⟨0, 0, .kEmpty⟩],
          1⟩ : hash_table Nat).array.length =
        (⟨[⟨0, 0, .kEmpty⟩, ⟨10, 7, .kActive⟩, ⟨0, 0, .kEmpty⟩],
          1⟩ : hash_table Nat).array.length ∧
      (⟨[⟨0, 0, .kEmpty⟩, ⟨10, 7, .kDeleted⟩, ⟨0, 0, .kEmpty⟩],
          1⟩ : hash_table Nat).array[pos]? =
        some { e with type := entry_type.kDeleted } ∧
      ∀ j, j ≠ pos →
        (⟨[⟨0, 0, .kEmpty⟩, ⟨10, 7, .kDeleted⟩, ⟨0, 0, .kEmpty⟩],
            1⟩ : hash_table Nat).array[j]? =
          (⟨[⟨0, 0, .kEmpty⟩, ⟨10, 7, .kActive⟩, ⟨0, 0, .kEmpty⟩],
            1⟩ : hash_table Nat).array[j]?) :=
  ⟨rfl,
    (claim_C10_remove_frame (fun x => x)
      (⟨[⟨0, 0, .kEmpty⟩, ⟨10, 7, .kActive⟩, ⟨0, 0, .kEmpty⟩], 1⟩ : hash_table Nat) 10 true
      (⟨[⟨0, 0, .kEmpty⟩, ⟨10, 7, .kDeleted⟩, ⟨0, 0, .kEmpty⟩], 1⟩ : hash_table Nat)
      (by rfl)).1⟩

/-- Stability of `find_position` when the slot at the returned index is
replaced by another stopping slot: the probe (same start, same offsets,
same length, hence also the same fuel) returns the same index. -/
theorem find_position_set_stable {τ : Type} [DecidableEq τ] (hashFn : τ → Nat)
    (t : hash_table τ) (v : τ) (i : Nat) (f : entry τ)
    (hstopf : f.type = entry_type.kEmpty ∨ f.element = v)
    (h : find_position hashFn t v = ProbeResult.found i) :
    find_position hashFn { t with array := t.array.set i f } v =
      ProbeResult.found i := by
  unfold find_position hashMod at h ⊢
  simp only [List.length_set]
  exact find_position_aux_set_stable t.array v f hstopf _ _ _ i h

/-- C8: after `remove(x)` returns, `contains(x)` is false, and an
immediately repeated `remove(x)` returns false and leaves the table
unchanged.  (When the first remove succeeded, the probe for `x` stops at
the same index as before — the tombstone still stores `x` — and the slot
is no longer Active; when it failed the table is unchanged and the found
slot was already not Active.) -/
theorem claim_C8_remove_then_contains {τ : Type} [DecidableEq τ] (hashFn : τ → Nat)
    (t : hash_table τ) (x : τ) (b : Bool) (t' : hash_table τ)
    (h : removeF hashFn t x = some (b, t')) :
    containsF hashFn t' x = some false ∧ removeF hashFn t' x = some (false, t') := by
  unfold removeF at h
  split at h
  · rename_i pos hfp
    split at h
    · rename_i e hg
      have hlt : pos < t.array.length := by
        rcases List.getElem?_eq_some_iff.mp hg with ⟨hl, _⟩
        exact hl
      split at h
      · rename_i hact
        injection h with h1
        injection h1 with hb ht
        subst ht
        have hstop : e.type = entry_type.kEmpty ∨ e.element = x := by
          rcases find_position_aux_found_stop t.array x _ _ _ pos hfp with ⟨e2, hg2, hs2⟩
          rw [hg] at hg2
          cases hg2
          exact hs2
        have helem : e.element = x := by
          rcases hstop with hemp | hel
          · rw [hact] at hemp
            exact absurd hemp (by simp)
          · exact hel
        have hfp' :
            find_position hashFn
              { t with array := t.array.set pos { e with type := entry_type.kDeleted } } x =
              ProbeResult.found pos :=
          find_position_set_stable hashFn t x pos _ (Or.inr helem) hfp
        have hg' :
            ({ t with
              array := t.array.set pos { e with type := entry_type.kDeleted } } :
                hash_table τ).array[pos]? =
              some { e with type := entry_type.kDeleted } := by
          simpa using List.getElem?_set_self hlt
        constructor
        · simp [containsF, hfp', is_active, hg']
        · simp [removeF, hfp', hg']
      · rename_i hact
        injection h with h1
        injection h1 with hb ht
        subst ht
        constructor
        · simp [containsF, hfp, is_active, hg, hact]
        · simp [removeF, hfp, hg, hact]
    · exact Option.noConfusion h
  · exact Option.noConfusion h

/-- Witness for C8: removing 10 from a one-entry table, then checking
containment and removing again. -/
theorem claim_C8_remove_then_contains_witness :
    containsF (fun x => x)
        (⟨[⟨0, 0, .kEmpty⟩, ⟨10, 7, .kDeleted⟩, ⟨0, 0, .kEmpty⟩], 1⟩ : hash_table Nat) 10 =
      some false ∧
    removeF (fun x => x)
        (⟨[⟨0, 0, .kEmpty⟩, ⟨10, 7, .kDeleted⟩, ⟨0, 0, .kEmpty⟩], 1⟩ : hash_table Nat) 10 =
      some (false, ⟨[⟨0, 0, .kEmpty⟩, ⟨10, 7, .kDeleted⟩, ⟨0, 0, .kEmpty⟩], 1⟩) :=
  claim_C8_remove_then_contains (fun x => x)
    (⟨[⟨0, 0, .kEmpty⟩, ⟨10, 7, .kActive⟩, ⟨0, 0, .kEmpty⟩], 1⟩ : hash_table Nat) 10 true
    (⟨[⟨0, 0, .kEmpty⟩, ⟨10, 7, .kDeleted⟩, ⟨0, 0, .kEmpty⟩], 1⟩ : hash_table Nat)
    (by rfl)

/-- A completed `rehash` run always reports `true` (the Boolean of the
interpreter's `.reh` job is the constant true that `insert`'s activation
branch returns after rehashing). -/
theorem execF_reh_true {τ : Type} [DecidableEq τ] [Inhabited τ] (hashFn : τ → Nat)
    (m : Nat) (s : hash_table τ) (b : Bool) (s' : hash_table τ)
    (h : execF hashFn m (Job.reh s) = some (b, s')) : b = true := by
  cases m with
  | zero => simp [execF] at h
  | succ n =>
    simp only [execF] at h
    cases hi : execF hashFn n (Job.reinsert (clearedResize s) s.array) with
    | none => rw [hi] at h; simp at h
    | some p =>
      rw [hi, Option.map_some'] at h
      injection h with h1
      injection h1 with hb _
      exact hb.symm

/-- C4: `insert(value, key)` determines its slot as `find_position(key)`
(line 65 probes the KEY, comparing it against stored elements), not
`find_position(value)` as the claim says.  Amended claim, proved here: for
every completed insert there is a position `pos = find_position(key)` such
that the return value is true iff the slot there was not Active (a new
activation), and when the slot was Active the insert returns false, either
updating the element in place (stored key equal to the supplied key) or
leaving the table unchanged (keys differ). -/
theorem claim_C4_amended {τ : Type} [DecidableEq τ] [Inhabited τ] (hashFn : τ → Nat)
    (fuel : Nat) (t : hash_table τ) (v k : τ) (b : Bool) (t' : hash_table τ)
    (h : insertF hashFn fuel t v k = some (b, t')) :
    ∃ pos e, find_position hashFn t k = ProbeResult.found pos ∧
      t.array[pos]? = some e ∧
      (b = true ↔ e.type ≠ entry_type.kActive) ∧
      (e.type = entry_type.kActive →
        t' = if e.key = k
          then { t with array := t.array.set pos { e with element := v } }
          else t) := by
  cases fuel with
  | zero => simp [insertF, execF] at h
  | succ n =>
    rw [insertF] at h
    simp only [execF] at h
    split at h
    · rename_i pos hfp
      split at h
      · exact Option.noConfusion h
      · rename_i e hg
        refine ⟨pos, e, hfp, hg, ?_⟩
        split at h
        · rename_i hact
          split at h
          · rename_i hkey
            injection h with h1
            injection h1 with hb ht
            subst hb
            subst ht
            exact ⟨by simp [hact], fun _ => by rw [if_pos hkey]⟩
          · rename_i hkey
            injection h with h1
            injection h1 with hb ht
            subst hb
            subst ht
            exact ⟨by simp [hact], fun _ => by rw [if_neg hkey]⟩
        · rename_i hact
          split at h
          · have hb := execF_reh_true hashFn n _ b t' h
            subst hb
            exact ⟨by simp [hact], fun hc => absurd hc hact⟩
          · injection h with h1
            injection h1 with hb ht
            subst hb
            subst ht
            exact ⟨by simp [hact], fun hc => absurd hc hact⟩
    · exact Option.noConfusion h

/-- Witness for C4's amended theorem: inserting (value 1, key 2) into a
fresh capacity-3 table with identity hash lands at `find_position(2) = 2`,
a non-Active slot, and returns true. -/
theorem claim_C4_amended_witness :
    ∃ pos e,
      find_position (fun x => x) (mk_table Nat 3) 2 = ProbeResult.found pos ∧
      (mk_table Nat 3).array[pos]? = some e ∧
      (true = true ↔ e.type ≠ entry_type.kActive) ∧
      (e.type = entry_type.kActive →
        (⟨[⟨0, 0, .kEmpty⟩, ⟨0, 0, .kEmpty⟩, ⟨1, 2, .kActive⟩], 1⟩ : hash_table Nat) =
          if e.key = 2
            then { mk_table Nat 3 with
              array := (mk_table Nat 3).array.set pos { e with element := 1 } }
            else mk_table Nat 3) :=
  claim_C4_amended (fun x => x) 5 (mk_table Nat 3) 1 2 true
    (⟨[⟨0, 0, .kEmpty⟩, ⟨0, 0, .kEmpty⟩, ⟨1, 2, .kActive⟩], 1⟩ : hash_table Nat) (by rfl)

/-- While the step offset is below the capacity, the single conditional
subtraction of the probe loop agrees with reduction modulo the capacity. -/
theorem probe_step_mod (p a b : Nat) (ha : a < p) (hb : b < p) :
    probe_step p a b = (a + b) % p := by
  unfold probe_step
  by_cases hle : p ≤ a + b
  · rw [if_pos hle, Nat.mod_eq_sub_mod hle, Nat.mod_eq_of_lt (by omega)]
  · rw [if_neg hle, Nat.mod_eq_of_lt (by omega)]

/-- For the first `capacity / 2` attempts the probed position is exactly
`(h + k^2) mod capacity`: the cumulative odd offsets 1, 3, …, 2k-1 sum to
`k^2` and each single subtraction is a genuine mod reduction because each
offset is still below the capacity. -/
theorem probe_pos_eq (p h0 : Nat) (hh : h0 < p) :
    ∀ k, 2 * k ≤ p → probe_pos p h0 k = (h0 + k * k) % p := by
  intro k
  induction k with
  | zero => intro _; simp [probe_pos, Nat.mod_eq_of_lt hh]
  | succ m ih =>
    intro hk
    have hm : 2 * m ≤ p := by omega
    have hrec := ih hm
    rw [probe_pos, hrec]
    have hplt : (h0 + m * m) % p < p := Nat.mod_lt _ (by omega)
    rw [probe_step_mod p _ (2 * m + 1) hplt (by omega), Nat.mod_add_mod]
    congr 1
    ring

/-- If the stop condition fails at every probed position before attempt
`j + d`, holds at attempt `j + d`, and all those positions are in range,
then the probe loop started at attempt `j` (position `probe_pos (j)`,
offset `2j+1`) returns the position of attempt `j + d`. -/
theorem find_position_aux_reach {τ : Type} [DecidableEq τ] (arr : List (entry τ))
    (v : τ) (h0 : Nat) :
    ∀ d j fuel,
      (∀ m, m < j + d → stopAt arr v (probe_pos arr.length h0 m) = false) →
      stopAt arr v (probe_pos arr.length h0 (j + d)) = true →
      (∀ m, m ≤ j + d → probe_pos arr.length h0 m < arr.length) →
      d + 1 ≤ fuel →
      find_position_aux arr v (probe_pos arr.length h0 j) (2 * j + 1) fuel =
        ProbeResult.found (probe_pos arr.length h0 (j + d)) := by
  intro d
  induction d with
  | zero =>
    intro j fuel _ hstop hin hfuel
    simp only [Nat.add_zero] at hstop ⊢
    cases fuel with
    | zero => omega
    | succ f =>
      rw [find_position_aux]
      have hlt : probe_pos arr.length h0 j < arr.length := hin j (by omega)
      unfold stopAt at hstop
      cases hg : arr[probe_pos arr.length h0 j]? with
      | none => rw [hg] at hstop; exact Bool.noConfusion hstop
      | some e =>
        rw [hg] at hstop
        have hprop : e.type = entry_type.kEmpty ∨ e.element = v := by
          simpa using hstop
        simp only [if_pos hprop]
  | succ n ih =>
    intro j fuel hno hstop hin hfuel
    cases fuel with
    | zero => omega
    | succ f =>
      rw [find_position_aux]
      have hlt : probe_pos arr.length h0 j < arr.length := hin j (by omega)
      have hnoj : stopAt arr v (probe_pos arr.length h0 j) = false := hno j (by omega)
      unfold stopAt at hnoj
      cases hg : arr[probe_pos arr.length h0 j]? with
      | none =>
        exact absurd (List.getElem?_eq_none_iff.mp hg) (by omega)
      | some e =>
        rw [hg] at hnoj
        have hprop : ¬(e.type = entry_type.kEmpty ∨ e.element = v) := by
          intro hor
          rcases hor with hl | hr
          · simp [hl] at hnoj
          · simp [hr] at hnoj
        simp only [if_neg hprop]
        have hstep : probe_step arr.length (probe_pos arr.length h0 j) (2 * j + 1) =
            probe_pos arr.length h0 (j + 1) := rfl
        have hoff : 2 * j + 1 + 2 = 2 * (j + 1) + 1 := by ring
        rw [hstep, hoff]
        have hres := ih (j + 1) f (by intro m hm; exact hno m (by omega))
          (by have harith : j + 1 + n = j + (n + 1) := by ring
              rw [harith]; exact hstop)
          (by intro m hm; exact hin m (by omega)) (by omega)
        have harith : j + 1 + n = j + (n + 1) := by ring
        rw [harith] at hres
        exact hres

/-- C3: the probed index follows `(hash + k^2) mod capacity` only while
the step offset stays below the capacity — i.e. for attempts
`k ≤ capacity / 2` — and the counterexample shows later attempts can
examine an out-of-range index.  Amended claim, proved here: if the stop
condition first holds at attempt `k` with `k ≤ capacity / 2`, then every
attempt `j ≤ k` the loop performs examines exactly index
`(hash(item) + j^2) mod capacity`, each of which is in range, and
`find_position` returns the index of attempt `k`. -/
theorem claim_C3_amended {τ : Type} [DecidableEq τ] (hashFn : τ → Nat)
    (t : hash_table τ) (v : τ) (k : Nat)
    (hp : 0 < t.array.length) (hk : k ≤ t.array.length / 2)
    (hnostop : ∀ j, j < k →
      stopAt t.array v (probe_pos t.array.length (hashMod hashFn t v) j) = false)
    (hstop : stopAt t.array v
      (probe_pos t.array.length (hashMod hashFn t v) k) = true) :
    (∀ j, j ≤ k →
      probe_pos t.array.length (hashMod hashFn t v) j =
        (hashMod hashFn t v + j * j) % t.array.length ∧
      (hashMod hashFn t v + j * j) % t.array.length < t.array.length) ∧
    find_position hashFn t v =
      ProbeResult.found ((hashMod hashFn t v + k * k) % t.array.length) := by
  have hh : hashMod hashFn t v < t.array.length := Nat.mod_lt _ hp
  have harr : ∀ j, j ≤ k →
      probe_pos t.array.length (hashMod hashFn t v) j =
        (hashMod hashFn t v + j * j) % t.array.length ∧
      (hashMod hashFn t v + j * j) % t.array.length < t.array.length := by
    intro j hj
    have h2j : 2 * j ≤ t.array.length := by omega
    exact ⟨probe_pos_eq t.array.length (hashMod hashFn t v) hh j h2j,
      Nat.mod_lt _ hp⟩
  refine ⟨harr, ?_⟩
  have hreach := find_position_aux_reach t.array v (hashMod hashFn t v) k 0
    (3 * t.array.length + 5)
    (by intro m hm; exact hnostop m (by omega))
    (by simpa using hstop)
    (by intro m hm
        rcases harr m (by omega) with ⟨he, hl⟩
        rw [he]; exact hl)
    (by omega)
  have hres : find_position hashFn t v =
      find_position_aux t.array v (probe_pos t.array.length (hashMod hashFn t v) 0)
        (2 * 0 + 1) (3 * t.array.length + 5) := rfl
  rw [hres, hreach]
  rcases harr k (le_refl k) with ⟨he, _⟩
  simpa using congrArg ProbeResult.found he

/-- Witness for C3's amended theorem: probing 1 on a fresh capacity-3
table stops at attempt 0, index `(1 + 0) mod 3 = 1`. -/
theorem claim_C3_amended_witness :
    ((∀ j, j ≤ 0 →
      probe_pos (mk_table Nat 3).array.length
          (hashMod (fun x => x) (mk_table Nat 3) 1) j =
        (hashMod (fun x => x) (mk_table Nat 3) 1 + j * j) %
          (mk_table Nat 3).array.length ∧
      (hashMod (fun x => x) (mk_table Nat 3) 1 + j * j) %
          (mk_table Nat 3).array.length < (mk_table Nat 3).array.length) ∧
    find_position (fun x => x) (mk_table Nat 3) 1 =
      ProbeResult.found
        ((hashMod (fun x => x) (mk_table Nat 3) 1 + 0 * 0) %
          (mk_table Nat 3).array.length)) :=
  claim_C3_amended (fun x => x) (mk_table Nat 3) 1 0 (by decide) (by decide)
    (by intro j hj; omega) (by decide)

/-- Quadratic residues are distinct over the first half of a prime
modulus: for a prime `p` and `2k, 2j ≤ p`, equal probe residues
`(h + k^2) mod p = (h + j^2) mod p` force `k = j`. -/
theorem probe_residue_inj (p : Nat) (hp : Nat.Prime p) (h0 k j : Nat)
    (hk : 2 * k ≤ p) (hj : 2 * j ≤ p)
    (heq : (h0 + k * k) % p = (h0 + j * j) % p) : k = j := by
  have hmod : k * k ≡ j * j [MOD p] := Nat.ModEq.add_left_cancel' h0 heq
  have hdvd0 := Nat.modEq_iff_dvd.mp hmod
  have hdvd : (p : ℤ) ∣ ((j : ℤ) - k) * ((j : ℤ) + k) := by
    have hfact : ((j * j : Nat) : ℤ) - ((k * k : Nat) : ℤ) =
        ((j : ℤ) - k) * ((j : ℤ) + k) := by push_cast; ring
    rw [hfact] at hdvd0
    exact hdvd0
  have hprime : Prime (p : ℤ) := Nat.prime_iff_prime_int.mp hp
  have hple : 2 ≤ p := hp.two_le
  rcases hprime.dvd_mul.mp hdvd with hd | hd
  · have hz : (j : ℤ) - k = 0 := by
      refine Int.eq_zero_of_abs_lt_dvd hd ?_
      rw [abs_lt]
      constructor <;> omega
    omega
  · have hnat : p ∣ j + k := by
      have hcast : (p : ℤ) ∣ ((j + k : Nat) : ℤ) := by push_cast; exact hd
      exact Int.natCast_dvd_natCast.mp hcast
    rcases Nat.eq_zero_or_pos (j + k) with hzero | hpos
    · omega
    · have := Nat.le_of_dvd hpos hnat
      omega

/-- The number of in-range indices holding a non-Empty slot equals the
count of non-Empty entries of the list. -/
theorem card_nonEmpty_indices {τ : Type} (arr : List (entry τ)) :
    ((Finset.range arr.length).filter (fun i => slotNonEmpty arr i = true)).card =
      arr.countP (fun e => decide (e.type ≠ entry_type.kEmpty)) := by
  induction arr using List.reverseRecOn with
  | nil => simp [slotNonEmpty]
  | append_singleton l a ih =>
    have hlen : (l ++ [a]).length = l.length + 1 := by simp
    rw [hlen, Finset.range_succ, Finset.filter_insert]
    have hS : (Finset.range l.length).filter (fun i => slotNonEmpty (l ++ [a]) i = true) =
        (Finset.range l.length).filter (fun i => slotNonEmpty l i = true) := by
      apply Finset.filter_congr
      intro i hi
      rw [Finset.mem_range] at hi
      unfold slotNonEmpty
      rw [List.getElem?_append_left hi]
    have hlast : slotNonEmpty (l ++ [a]) l.length = decide (a.type ≠ entry_type.kEmpty) := by
      unfold slotNonEmpty
      rw [List.getElem?_concat_length]
    have hcount : (l ++ [a]).countP (fun e => decide (e.type ≠ entry_type.kEmpty)) =
        l.countP (fun e => decide (e.type ≠ entry_type.kEmpty)) +
          (if a.type ≠ entry_type.kEmpty then 1 else 0) := by
      rw [List.countP_append]
      simp [List.countP_cons]
    rw [hcount, ← ih, ← hS]
    by_cases hQ : a.type ≠ entry_type.kEmpty
    · rw [if_pos (by rw [hlast]; simpa using hQ), if_pos hQ,
        Finset.card_insert_of_not_mem ?_]
      intro hmem
      have := Finset.mem_range.mp (Finset.filter_subset _ _ hmem)
      omega
    · rw [if_neg (by rw [hlast]; simpa using hQ), if_neg hQ, Nat.add_zero]

/-- C7: as literally stated — the load-factor invariant together with the
existence of an Empty slot — the claim is refuted by the counterexample;
`count` does not bound the number of non-Empty slots, because `remove`
leaves it unchanged.  Amended claim, proved here: on a table with PRIME
capacity whose number of non-Empty (Active or Deleted) slots is at most
capacity/2, `find_position` terminates with an index for every probed
item.  The first capacity/2 + 1 probed positions are pairwise distinct
(quadratic residues over a prime modulus), so they cannot all be
non-Empty; the loop therefore stops at a matching or Empty slot within the
range where its position arithmetic is still a genuine mod reduction. -/
theorem claim_C7_amended {τ : Type} [DecidableEq τ] (hashFn : τ → Nat)
    (t : hash_table τ) (v : τ) (hp : Nat.Prime t.array.length)
    (hload : nonEmptyCount t ≤ t.array.length / 2) :
    is_found (find_position hashFn t v) = true := by
  have hppos : 0 < t.array.length := hp.pos
  have hh : hashMod hashFn t v < t.array.length := Nat.mod_lt _ hppos
  by_cases hex : ∃ k, k ≤ t.array.length / 2 ∧
      stopAt t.array v (probe_pos t.array.length (hashMod hashFn t v) k) = true
  · rcases hex with ⟨k, hkle, hkstop⟩
    have hfind : ∃ m,
        stopAt t.array v (probe_pos t.array.length (hashMod hashFn t v) m) = true :=
      ⟨k, hkstop⟩
    have hk0le : Nat.find hfind ≤ k := Nat.find_min' hfind hkstop
    have hk0stop := Nat.find_spec hfind
    have hno : ∀ j, j < Nat.find hfind →
        stopAt t.array v (probe_pos t.array.length (hashMod hashFn t v) j) = false := by
      intro j hj
      have := Nat.find_min hfind hj
      simpa using this
    have hin : ∀ m, m ≤ Nat.find hfind →
        probe_pos t.array.length (hashMod hashFn t v) m < t.array.length := by
      intro m hm
      have h2m : 2 * m ≤ t.array.length := by omega
      rw [probe_pos_eq t.array.length (hashMod hashFn t v) hh m h2m]
      exact Nat.mod_lt _ hppos
    have hreach := find_position_aux_reach t.array v (hashMod hashFn t v)
      (Nat.find hfind) 0 (3 * t.array.length + 5)
      (by intro m hm; exact hno m (by omega))
      (by simpa using hk0stop)
      (by intro m hm; exact hin m (by omega))
      (by omega)
    have hres : find_position hashFn t v =
        ProbeResult.found
          (probe_pos t.array.length (hashMod hashFn t v) (Nat.find hfind)) := by
      have hdef : find_position hashFn t v =
          find_position_aux t.array v
            (probe_pos t.array.length (hashMod hashFn t v) 0) (2 * 0 + 1)
            (3 * t.array.length + 5) := rfl
      rw [hdef]
      simpa using hreach
    rw [hres]
    rfl
  · exfalso
    push_neg at hex
    have hall : ∀ k, k ≤ t.array.length / 2 →
        stopAt t.array v (probe_pos t.array.length (hashMod hashFn t v) k) = false := by
      intro k hk
      simpa using hex k hk
    have hNod : ((List.range (t.array.length / 2 + 1)).map
        (fun k => (hashMod hashFn t v + k * k) % t.array.length)).Nodup := by
      refine List.Nodup.map_on ?_ (List.nodup_range _)
      intro x hx y hy hxy
      rw [List.mem_range] at hx hy
      exact probe_residue_inj t.array.length hp (hashMod hashFn t v) x y
        (by omega) (by omega) hxy
    have hsub : ((List.range (t.array.length / 2 + 1)).map
        (fun k => (hashMod hashFn t v + k * k) % t.array.length)).toFinset ⊆
        (Finset.range t.array.length).filter
          (fun i => slotNonEmpty t.array i = true) := by
      intro i hi
      rw [List.mem_toFinset] at hi
      rcases List.mem_map.mp hi with ⟨k, hkmem, rfl⟩
      rw [List.mem_range] at hkmem
      have h2k : 2 * k ≤ t.array.length := by omega
      have hpi : probe_pos t.array.length (hashMod hashFn t v) k =
          (hashMod hashFn t v + k * k) % t.array.length :=
        probe_pos_eq t.array.length (hashMod hashFn t v) hh k h2k
      have hlt : (hashMod hashFn t v + k * k) % t.array.length < t.array.length :=
        Nat.mod_lt _ hppos
      have hstopf := hall k (by omega)
      rw [hpi] at hstopf
      rw [Finset.mem_filter, Finset.mem_range]
      refine ⟨hlt, ?_⟩
      unfold stopAt at hstopf
      unfold slotNonEmpty
      cases hg : t.array[(hashMod hashFn t v + k * k) % t.array.length]? with
      | none => exact absurd (List.getElem?_eq_none_iff.mp hg) (by omega)
      | some e =>
        rw [hg] at hstopf
        have hprops : ¬(e.type = entry_type.kEmpty) ∧ ¬(e.element = v) := by
          simpa using hstopf
        simp [hprops.1]
    have h1 := List.toFinset_card_of_nodup hNod
    have h2 : ((List.range (t.array.length / 2 + 1)).map
        (fun k => (hashMod hashFn t v + k * k) % t.array.length)).length =
        t.array.length / 2 + 1 := by simp
    have h3 := Finset.card_le_card hsub
    rw [card_nonEmpty_indices] at h3
    have h4 : t.array.countP (fun e => decide (e.type ≠ entry_type.kEmpty)) =
        nonEmptyCount t := rfl
    omega

/-- Witness for C7's amended theorem: a prime-capacity-3 table with one
Active slot (at most 3/2 non-Empty slots) always finds a position. -/
theorem claim_C7_amended_witness :
    is_found
      (find_position (fun x => x)
        (⟨[⟨1, 1, .kActive⟩, ⟨0, 0, .kEmpty⟩, ⟨0, 0, .kEmpty⟩], 1⟩ : hash_table Nat) 5) =
      true :=
  claim_C7_amended (fun x => x)
    (⟨[⟨1, 1, .kActive⟩, ⟨0, 0, .kEmpty⟩, ⟨0, 0, .kEmpty⟩], 1⟩ : hash_table Nat) 5
    (by decide) (by decide)

/-- The trial-division loop returns true (for any fuel) when no odd
divisor at or above the current counter squares below the bound. -/
theorem trial_division_eq_true_of (n : Nat) :
    ∀ fuel c, c % 2 = 1 →
      (∀ m, c ≤ m → m % 2 = 1 → m * m ≤ n → ¬ m ∣ n) →
      trial_division fuel n c = true := by
  intro fuel
  induction fuel with
  | zero => intro c _ _; rfl
  | succ f ih =>
    intro c hodd hno
    rw [trial_division]
    by_cases hg : c * c ≤ n
    · rw [if_pos hg]
      have hnd : ¬ c ∣ n := hno c (le_refl c) hodd hg
      have hmod : ¬ (n % c = 0) := fun h => hnd (Nat.dvd_of_mod_eq_zero h)
      rw [if_neg hmod]
      exact ih (c + 2) (by omega) (fun m hm hmo hmm => hno m (by omega) hmo hmm)
    · rw [if_neg hg]

/-- The trial-division loop finds an odd divisor `m` of `n` with
`m * m ≤ n` once given enough fuel to reach it. -/
theorem trial_division_eq_false_of (n : Nat) :
    ∀ fuel c m, c ≤ m → c % 2 = 1 → m % 2 = 1 → m * m ≤ n → m ∣ n →
      (m - c) / 2 + 1 ≤ fuel → trial_division fuel n c = false := by
  intro fuel
  induction fuel with
  | zero => intro c m _ _ _ _ _ hfuel; omega
  | succ f ih =>
    intro c m hcm hco hmo hmm hdvd hfuel
    rw [trial_division]
    have hguard : c * c ≤ n := le_trans (Nat.mul_le_mul hcm hcm) hmm
    rw [if_pos hguard]
    by_cases hmod : n % c = 0
    · rw [if_pos hmod]
    · rw [if_neg hmod]
      have hcne : c ≠ m := by
        intro hceq
        subst hceq
        exact hmod (Nat.mod_eq_zero_of_dvd hdvd)
      exact ih (c + 2) m (by omega) (by omega) hmo hmm hdvd (by omega)

/-- `is_prime` decides primality. -/
theorem is_prime_iff (n : Nat) : is_prime n = true ↔ Nat.Prime n := by
  unfold is_prime
  by_cases h23 : n = 2 ∨ n = 3
  · rw [if_pos h23]
    rcases h23 with rfl | rfl
    · simpa using Nat.prime_two
    · simpa using Nat.prime_three
  · rw [if_neg h23]
    by_cases h1e : n = 1 ∨ n % 2 = 0
    · rw [if_pos h1e]
      constructor
      · intro habs; exact Bool.noConfusion habs
      · intro hp
        exfalso
        rcases h1e with rfl | heven
        · exact Nat.not_prime_one hp
        · have h2d : 2 ∣ n := Nat.dvd_of_mod_eq_zero heven
          rcases (Nat.Prime.eq_one_or_self_of_dvd hp 2 h2d) with h1 | h2
          · omega
          · exact h23 (Or.inl h2.symm)
    · rw [if_neg h1e]
      push_neg at h23 h1e
      have hodd : n % 2 = 1 := by omega
      have hn5 : 5 ≤ n := by omega
      constructor
      · intro htd
        rw [Nat.prime_def_le_sqrt]
        refine ⟨by omega, ?_⟩
        intro m hm2 hms hdvd
        have hmm : m * m ≤ n := Nat.le_sqrt.mp hms
        have hmo : m % 2 = 1 := by
          by_cases hmp : m % 2 = 0
          · exfalso
            have h2m : 2 ∣ m := Nat.dvd_of_mod_eq_zero hmp
            have h2n : 2 ∣ n := dvd_trans h2m hdvd
            have := Nat.mod_eq_zero_of_dvd h2n
            omega
          · omega
        have hm3 : 3 ≤ m := by omega
        have hfalse := trial_division_eq_false_of n n 3 m hm3 (by omega) hmo hmm hdvd
          (by have : m ≤ n := by nlinarith
              omega)
        rw [htd] at hfalse
        exact Bool.noConfusion hfalse
      · intro hp
        apply trial_division_eq_true_of n n 3 (by omega)
        intro m hm3 hmo hmm hdvd
        rcases Nat.Prime.eq_one_or_self_of_dvd hp m hdvd with h1 | hs
        · omega
        · subst hs
          have hx : m * m ≤ m * 1 := by simpa using hmm
          have := Nat.le_of_mul_le_mul_left hx (by omega)
          omega

/-- The prime search never returns less than its starting candidate. -/
theorem next_prime_from_ge : ∀ fuel c, c ≤ next_prime_from c fuel := by
  intro fuel
  induction fuel with
  | zero => intro c; exact le_refl c
  | succ f ih =>
    intro c
    rw [next_prime_from]
    by_cases hcp : is_prime c = true
    · rw [if_pos hcp]
    · rw [if_neg hcp]
      exact le_trans (by omega) (ih (c + 2))

/-- The odd-step prime search reaches the least prime `Q` at or above its
(odd) starting candidate, given enough fuel. -/
theorem next_prime_from_eq (Q : Nat) (hQ : Nat.Prime Q) :
    ∀ fuel c, c % 2 = 1 → c ≤ Q → Q % 2 = 1 →
      (∀ m, c ≤ m → m < Q → ¬ Nat.Prime m) →
      (Q - c) / 2 + 1 ≤ fuel → next_prime_from c fuel = Q := by
  intro fuel
  induction fuel with
  | zero => intro c _ _ _ _ hfuel; omega
  | succ f ih =>
    intro c hco hcq hqo hmin hfuel
    rw [next_prime_from]
    by_cases hcp : is_prime c = true
    · rw [if_pos hcp]
      have hnlt : ¬ c < Q := fun hlt => hmin c (le_refl c) hlt ((is_prime_iff c).mp hcp)
      omega
    · rw [if_neg hcp]
      have hcne : c ≠ Q := by
        intro hceq
        exact hcp (hceq ▸ (is_prime_iff Q).mpr hQ)
      exact ih (c + 2) (by omega) (by omega) hqo
        (fun m hm hmlt => hmin m (by omega) hmlt) (by omega)

/-- For `n ≥ 3`, `next_prime n` is exactly the smallest prime `≥ n`. -/
theorem next_prime_least (n : Nat) (hn : 3 ≤ n) :
    Nat.Prime (next_prime n) ∧ n ≤ next_prime n ∧
      ∀ m, n ≤ m → m < next_prime n → ¬ Nat.Prime m := by
  have hex : ∃ p, n ≤ p ∧ Nat.Prime p := by
    rcases Nat.exists_prime_lt_and_le_two_mul n (by omega) with ⟨p, hp, hlt, _⟩
    exact ⟨p, le_of_lt hlt, hp⟩
  have hQspec := Nat.find_spec hex
  have hQn : n ≤ Nat.find hex := hQspec.1
  have hQp : Nat.Prime (Nat.find hex) := hQspec.2
  have hQmin : ∀ m, n ≤ m → m < Nat.find hex → ¬ Nat.Prime m := by
    intro m hm hmlt hmp
    exact Nat.find_min hex hmlt ⟨hm, hmp⟩
  have hQ2n : Nat.find hex ≤ 2 * n := by
    rcases Nat.exists_prime_lt_and_le_two_mul n (by omega) with ⟨p, hp, hlt, hle⟩
    exact le_trans (Nat.find_min' hex ⟨le_of_lt hlt, hp⟩) hle
  have hQodd : Nat.find hex % 2 = 1 := by
    have h2 : Nat.find hex ≠ 2 := by omega
    rcases Nat.Prime.odd_of_ne_two hQp h2 with ⟨k, hk⟩
    omega
  have hres : next_prime n = Nat.find hex := by
    unfold next_prime
    by_cases hpar : n % 2 = 0
    · rw [if_pos hpar]
      have hQne : Nat.find hex ≠ n := by omega
      exact next_prime_from_eq (Nat.find hex) hQp (n + 2) (n + 1) (by omega)
        (by omega) hQodd (fun m hm hmlt => hQmin m (by omega) hmlt) (by omega)
    · rw [if_neg hpar]
      exact next_prime_from_eq (Nat.find hex) hQp (n + 2) n (by omega) hQn hQodd
        hQmin (by omega)
  rw [hres]
  exact ⟨hQp, hQn, hQmin⟩

/-- C9: amended claim.  For every requested capacity n ≥ 3 the constructed
table's capacity is the smallest prime ≥ n, every slot is Empty and the
count is 0 (requesting 10 yields 11); but requesting 2 yields capacity 3,
not 2, because `next_prime` forces its argument odd before testing and so
can never return the prime 2. -/
theorem claim_C9_amended :
    (∀ n : Nat, 3 ≤ n →
      Nat.Prime (mk_table Nat n).array.length ∧
      n ≤ (mk_table Nat n).array.length ∧
      (∀ m, n ≤ m → m < (mk_table Nat n).array.length → ¬ Nat.Prime m) ∧
      (∀ e, e ∈ (mk_table Nat n).array → e.type = entry_type.kEmpty) ∧
      (mk_table Nat n).current_size = 0) ∧
    (mk_table Nat 2).array.length = 3 ∧
    (mk_table Nat 10).array.length = 11 := by
  refine ⟨?_, rfl, rfl⟩
  intro n hn
  have hlen : (mk_table Nat n).array.length = next_prime n := by
    simp [mk_table, make_empty]
  rcases next_prime_least n hn with ⟨hp, hge, hmin⟩
  rw [hlen]
  refine ⟨hp, hge, hmin, ?_, rfl⟩
  intro e he
  have he' : e ∈ (List.replicate (next_prime n)
      ({ element := 0, key := 0, type := entry_type.kEmpty } : entry Nat)).map
      (fun a => { a with type := entry_type.kEmpty }) := he
  rcases List.mem_map.mp he' with ⟨a, _, rfl⟩
  rfl

/-- Witness for C9's amended theorem at the concrete requested capacity
10: the resulting capacity 11 is prime and at least 10. -/
theorem claim_C9_amended_witness :
    Nat.Prime (mk_table Nat 10).array.length ∧
      10 ≤ (mk_table Nat 10).array.length ∧
      (mk_table Nat 10).current_size = 0 :=
  ⟨(claim_C9_amended.1 10 (by omega)).1, (claim_C9_amended.1 10 (by omega)).2.1,
    (claim_C9_amended.1 10 (by omega)).2.2.2.2⟩

/-- The doubled-and-rounded capacity strictly exceeds the old one:
`next_prime (2m) ≥ 2m + 1` (the even argument is first made odd and the
search never decreases). -/
theorem next_prime_two_mul_ge (m : Nat) : 2 * m + 1 ≤ next_prime (2 * m) := by
  unfold next_prime
  rw [if_pos (by omega : 2 * m % 2 = 0)]
  exact next_prime_from_ge (2 * m + 2) (2 * m + 1)

/-- Joint invariant of the insertion path, by induction on the fuel.
For `insert`: if `count < capacity` beforehand, then afterwards the
capacity has not shrunk and either count and capacity are unchanged (an
update or a rejected insert) or `count ≤ capacity/2` holds.
For `rehash`: if `count ≤ capacity` beforehand (capacity ≥ 1), the
capacity has not shrunk and `count ≤ capacity/2` holds afterwards.
For the re-insertion loop: the intermediate state either already satisfies
`count ≤ capacity/2` or still has the table as cleared on entry to rehash
(count bounded by the pre-rehash count `C`, capacity equal to the enlarged
prime `P ≥ 2C+1`), and this is preserved to the end of the loop. -/
theorem exec_invariants {τ : Type} [DecidableEq τ] [Inhabited τ] (hashFn : τ → Nat) :
    ∀ fuel : Nat,
      (∀ t v k b t', t.current_size < t.array.length →
        execF hashFn fuel (Job.ins t v k) = some (b, t') →
        t.array.length ≤ t'.array.length ∧
          ((t'.current_size = t.current_size ∧ t'.array.length = t.array.length) ∨
            t'.current_size ≤ t'.array.length / 2)) ∧
      (∀ t b t', t.current_size ≤ t.array.length → 1 ≤ t.array.length →
        execF hashFn fuel (Job.reh t) = some (b, t') →
        t.array.length ≤ t'.array.length ∧ t'.current_size ≤ t'.array.length / 2) ∧
      (∀ l s b s' (C P : Nat), 3 ≤ P → 2 * C + 1 ≤ P →
        P ≤ s.array.length →
        (s.current_size ≤ s.array.length / 2 ∨
          (s.current_size ≤ C ∧ s.array.length = P)) →
        execF hashFn fuel (Job.reinsert s l) = some (b, s') →
        P ≤ s'.array.length ∧
          (s'.current_size ≤ s'.array.length / 2 ∨
            (s'.current_size ≤ C ∧ s'.array.length = P))) := by
  intro fuel
  induction fuel with
  | zero =>
    refine ⟨?_, ?_, ?_⟩
    · intro t v k b t' hpre h
      simp [execF] at h
    · intro t b t' hc hl h
      simp [execF] at h
    · intro l s b s' C P h3 hcp hple hphi h
      simp [execF] at h
  | succ n ih =>
    obtain ⟨ihA, ihR, ihRe⟩ := ih
    refine ⟨?_, ?_, ?_⟩
    · intro t v k b t' hpre h
      simp only [execF] at h
      split at h
      · rename_i pos hfp
        split at h
        · exact Option.noConfusion h
        · rename_i e hg
          split at h
          · split at h
            · injection h with h1
              injection h1 with hb ht
              subst ht
              refine ⟨by simp, Or.inl ⟨rfl, by simp⟩⟩
            · injection h with h1
              injection h1 with hb ht
              subst ht
              exact ⟨le_refl _, Or.inl ⟨rfl, rfl⟩⟩
          · rename_i hact
            split at h
            · rename_i hover
              have hR := ihR _ b t' (by simp; omega) (by simp; omega) h
              have h1 := hR.1
              simp at h1
              exact ⟨h1, Or.inr hR.2⟩
            · rename_i hover
              injection h with h1
              injection h1 with hb ht
              subst ht
              simp at hover ⊢
              omega
      · exact Option.noConfusion h
    · intro t b t' hc hl h
      rw [execF] at h
      cases hi : execF hashFn n (Job.reinsert (clearedResize t) t.array) with
      | none => rw [hi] at h; simp at h
      | some p =>
        rw [hi, Option.map_some'] at h
        injection h with h1
        injection h1 with hb ht
        have hnp := next_prime_two_mul_ge t.array.length
        have hlen0 : (clearedResize t).array.length =
            next_prime (2 * t.array.length) := by
          simp [clearedResize]
          omega
        have hRe := ihRe t.array (clearedResize t) p.1 p.2 t.current_size
          (next_prime (2 * t.array.length)) (by omega) (by omega)
          (by rw [hlen0]) (Or.inr ⟨le_refl _, hlen0⟩) hi
        subst ht
        constructor
        · have h1 := hRe.1
          omega
        · rcases hRe.2 with hl2 | ⟨hc2, hl2⟩
          · exact hl2
          · rw [hl2]
            omega
    · intro l s b s' C P hP3 hCP hPle hphi h
      cases l with
      | nil =>
        rw [execF] at h
        injection h with h1
        injection h1 with hb hs
        subst hs
        exact ⟨hPle, hphi⟩
      | cons e rest =>
        rw [execF] at h
        split at h
        · cases hi : execF hashFn n (Job.ins s e.element default) with
          | none => rw [hi] at h; simp at h
          | some q =>
            rw [hi, Option.some_bind] at h
            have hpre : s.current_size < s.array.length := by
              rcases hphi with hl2 | ⟨hc2, hl2⟩
              · omega
              · omega
            have hA := ihA s e.element default q.1 q.2 hpre hi
            have hphi2 : P ≤ q.2.array.length ∧
                (q.2.current_size ≤ q.2.array.length / 2 ∨
                  (q.2.current_size ≤ C ∧ q.2.array.length = P)) := by
              rcases hA.2 with ⟨hc2, hl2⟩ | hle
              · refine ⟨by omega, ?_⟩
                rcases hphi with h1 | ⟨h1, h2⟩
                · left; omega
                · right; exact ⟨by omega, by omega⟩
              · exact ⟨by omega, Or.inl hle⟩
            exact ihRe rest q.2 b s' C P hP3 hCP hphi2.1 hphi2.2 h
        · exact ihRe rest s b s' C P hP3 hCP hPle hphi h

/-- C6: the load-factor invariant `count ≤ capacity/2` is preserved by
every completed mutating operation on a table that satisfies it: any
completed `insert` (including any rehash it triggers, across the
re-insertions performed inside `rehash` — whose nested load checks restore
the bound even though `rehash` never resets `current_size`) and any
completed `remove`. -/
theorem claim_C6_load_factor {τ : Type} [DecidableEq τ] [Inhabited τ]
    (hashFn : τ → Nat) (t : hash_table τ) (hlen : 1 ≤ t.array.length)
    (hinv : t.current_size ≤ t.array.length / 2) :
    (∀ fuel v k b t', insertF hashFn fuel t v k = some (b, t') →
      t'.current_size ≤ t'.array.length / 2) ∧
    (∀ x b t', removeF hashFn t x = some (b, t') →
      t'.current_size ≤ t'.array.length / 2) := by
  constructor
  · intro fuel v k b t' h
    have hA := (exec_invariants hashFn fuel).1 t v k b t' (by omega) h
    rcases hA.2 with ⟨hc, hl⟩ | hle
    · rw [hc, hl]; exact hinv
    · exact hle
  · intro x b t' h
    unfold removeF at h
    split at h
    · rename_i pos hfp
      split at h
      · rename_i e hg
        split at h
        · injection h with h1
          injection h1 with hb ht
          subst ht
          simpa using hinv
        · injection h with h1
          injection h1 with hb ht
          subst ht
          exact hinv
      · exact Option.noConfusion h
    · exact Option.noConfusion h

/-- Witness for C6: inserting (5,5) into a fresh capacity-3 table keeps
`count ≤ capacity/2` (count 1, capacity 3). -/
theorem claim_C6_load_factor_witness :
    insertF (fun x => x) 10 (mk_table Nat 3) 5 5 =
      some (true, ⟨[⟨0, 0, .kEmpty⟩, ⟨0, 0, .kEmpty⟩, ⟨5, 5, .kActive⟩], 1⟩) ∧
    (⟨[⟨0, 0, .kEmpty⟩, ⟨0, 0, .kEmpty⟩, ⟨5, 5, .kActive⟩],
        1⟩ : hash_table Nat).current_size ≤
      (⟨[⟨0, 0, .kEmpty⟩, ⟨0, 0, .kEmpty⟩, ⟨5, 5, .kActive⟩],
        1⟩ : hash_table Nat).array.length / 2 :=
  ⟨by rfl,
    (claim_C6_load_factor (fun x => x) (mk_table Nat 3) (by decide) (by decide)).1
      10 5 5 true
      (⟨[⟨0, 0, .kEmpty⟩, ⟨0, 0, .kEmpty⟩, ⟨5, 5, .kActive⟩], 1⟩ : hash_table Nat)
      (by rfl)⟩
